import Mathlib

/-!
Verification development for the 1_Crypto dashboard scripts.

The embedded code comes from:
  - crypto.py        : CoinGecko fetch functions (get_market_data, get_historical_data)
                       and the session watchlist mutations.
  - Crypto2.py       : the technical-indicator functions over pandas Series
                       (calculate_rsi, calculate_ema, calculate_sma, calculate_macd).
  - Crypto3.py       : the per-symbol CoinMarketCap fetch loop (get_crypto_data).
  - Crypto4.py       : calculate_momentum_score.
  - Crypto_Treasury_Tracker.py : the implied-premium computation loop.

Pandas/NumPy float series are modelled over `FVal`, an extension of ℚ by
positive infinity, negative infinity and NaN, with IEEE-754-style
arithmetic on those special values (division by zero yields a signed
infinity or NaN, NaN propagates).  HTTP traffic is modelled by an
injected transport function; `requests.get` either raises (netError) or
yields a response with a status code and a parse result for its body.
-/

/-- Value domain of one entry of a pandas float64 series: a rational
number, one of the two infinities, or NaN. -/
inductive FVal where
  | nan : FVal
  | negInf : FVal
  | val : ℚ → FVal
  | inf : FVal
deriving DecidableEq, Repr

/-- IEEE-style addition: NaN propagates; opposite infinities give NaN. -/
def FVal.add : FVal → FVal → FVal
  | .nan, _ => .nan
  | _, .nan => .nan
  | .inf, .negInf => .nan
  | .negInf, .inf => .nan
  | .inf, _ => .inf
  | _, .inf => .inf
  | .negInf, _ => .negInf
  | _, .negInf => .negInf
  | .val a, .val b => .val (a + b)

/-- IEEE-style negation. -/
def FVal.neg : FVal → FVal
  | .nan => .nan
  | .inf => .negInf
  | .negInf => .inf
  | .val a => .val (-a)

/-- IEEE-style subtraction. -/
def FVal.sub (a b : FVal) : FVal := a.add b.neg

/-- IEEE-style multiplication: infinity times zero is NaN. -/
def FVal.mul : FVal → FVal → FVal
  | .nan, _ => .nan
  | _, .nan => .nan
  | .inf, .inf => .inf
  | .inf, .negInf => .negInf
  | .negInf, .inf => .negInf
  | .negInf, .negInf => .inf
  | .inf, .val b => if 0 < b then .inf else if b < 0 then .negInf else .nan
  | .val a, .inf => if 0 < a then .inf else if a < 0 then .negInf else .nan
  | .negInf, .val b => if 0 < b then .negInf else if b < 0 then .inf else .nan
  | .val a, .negInf => if 0 < a then .negInf else if a < 0 then .inf else .nan
  | .val a, .val b => .val (a * b)

/-- IEEE-style division: a nonzero finite value divided by zero is a
signed infinity, zero divided by zero is NaN, a finite value divided by
an infinity is zero. -/
def FVal.div : FVal → FVal → FVal
  | .nan, _ => .nan
  | _, .nan => .nan
  | .inf, .inf => .nan
  | .inf, .negInf => .nan
  | .negInf, .inf => .nan
  | .negInf, .negInf => .nan
  | .inf, .val b => if 0 ≤ b then .inf else .negInf
  | .negInf, .val b => if 0 ≤ b then .negInf else .inf
  | .val _, .inf => .val 0
  | .val _, .negInf => .val 0
  | .val a, .val b =>
      if b ≠ 0 then .val (a / b)
      else if 0 < a then .inf
      else if a < 0 then .negInf
      else .nan

/-- `prices.diff()` over a NaN-free price series: position 0 is NaN,
position i is `prices[i] - prices[i-1]`. -/
def seriesDiff (prices : List ℚ) : List FVal :=
  match prices with
  | [] => []
  | _ :: rest => FVal.nan :: List.zipWith (fun a b => FVal.val (a - b)) rest prices

/-- pandas `clip(lower=0)` on one entry (the maximum of the entry and 0). -/
def clipLower0 : FVal → FVal
  | .nan => .nan
  | .inf => .inf
  | .negInf => .val 0
  | .val a => .val (if a ≤ 0 then 0 else a)

/-- pandas `clip(upper=0)` on one entry (the minimum of the entry and 0). -/
def clipUpper0 : FVal → FVal
  | .nan => .nan
  | .inf => .val 0
  | .negInf => .negInf
  | .val a => .val (if a ≤ 0 then a else 0)

/-- Whether a window contains a NaN entry. -/
def hasNanEntry : List FVal → Bool
  | [] => false
  | .nan :: _ => true
  | _ :: rest => hasNanEntry rest

/-- Mean of one full rolling window: NaN as soon as any entry is NaN
(pandas default `min_periods = window`), otherwise the IEEE sum of the
entries divided by the window size. -/
def windowMean (ys : List FVal) (w : ℕ) : FVal :=
  if hasNanEntry ys then FVal.nan
  else FVal.div (ys.foldr FVal.add (FVal.val 0)) (FVal.val w)

/-- pandas `Series.rolling(w).mean()`: position i is NaN until the
window is full (`i + 1 < w`), afterwards the mean of entries
`i+1-w .. i`. -/
def rollingMean (xs : List FVal) (w : ℕ) : List FVal :=
  (List.range xs.length).map (fun i =>
    if i + 1 < w then FVal.nan
    else windowMean ((xs.take (i + 1)).drop (i + 1 - w)) w)

/-- Crypto2.py line 26: `gains = deltas.clip(lower=0)`. -/
def rsiGains (prices : List ℚ) : List FVal :=
  (seriesDiff prices).map clipLower0

/-- Crypto2.py line 27: `losses = -deltas.clip(upper=0)`. -/
def rsiLosses (prices : List ℚ) : List FVal :=
  (seriesDiff prices).map (fun d => (clipUpper0 d).neg)

/-- Crypto2.py line 29: `avg_gain = gains.rolling(window).mean()`. -/
def rsiAvgGain (prices : List ℚ) (window : ℕ) : List FVal :=
  rollingMean (rsiGains prices) window

/-- Crypto2.py line 30: `avg_loss = losses.rolling(window).mean()`. -/
def rsiAvgLoss (prices : List ℚ) (window : ℕ) : List FVal :=
  rollingMean (rsiLosses prices) window

/-- Crypto2.py `calculate_rsi`: `rs = avg_gain / avg_loss` and
`rsi = 100 - (100 / (1 + rs))`, both elementwise over the series.
There is no explicit guard for a zero average loss; the division
follows the IEEE rules of `FVal.div`. -/
def calculate_rsi (prices : List ℚ) (window : ℕ) : List FVal :=
  let rs := List.zipWith FVal.div (rsiAvgGain prices window) (rsiAvgLoss prices window)
  rs.map (fun r => FVal.sub (FVal.val 100) (FVal.div (FVal.val 100) (FVal.add (FVal.val 1) r)))

/-- Recurrence of `Series.ewm(span, adjust=False).mean()`: the head seeds
the average, each later value is `(1-a) * previous + a * current`. -/
def ewmGo (a : ℚ) (e : ℚ) : List ℚ → List ℚ
  | [] => [e]
  | y :: ys => e :: ewmGo a ((1 - a) * e + a * y) ys

/-- Crypto2.py `calculate_ema`: `prices.ewm(span=window, adjust=False).mean()`
with smoothing factor `2 / (window + 1)`, seeded by the first price.
Every position of the output carries a value. -/
def calculate_ema (prices : List ℚ) (window : ℕ) : List ℚ :=
  match prices with
  | [] => []
  | x :: xs => ewmGo (2 / ((window : ℚ) + 1)) x xs

/-- Crypto2.py `calculate_sma`: `prices.rolling(window).mean()`. -/
def calculate_sma (prices : List ℚ) (window : ℕ) : List FVal :=
  rollingMean (prices.map FVal.val) window

/-- Crypto2.py `calculate_macd`: the MACD line is the elementwise
difference of the fast and slow EMA, the signal line is the EMA of the
MACD line. -/
def calculate_macd (prices : List ℚ) (fast slow signal : ℕ) : List ℚ × List ℚ :=
  let ema_fast := calculate_ema prices fast
  let ema_slow := calculate_ema prices slow
  let macd := List.zipWith (fun a b => a - b) ema_fast ema_slow
  (macd, calculate_ema macd signal)

/-- One normalized CoinGecko market record, restricted to the fields the
dashboards read. -/
structure QuoteRecord where
  id : String
  name : String
  symbol : String
  current_price : ℚ
deriving DecidableEq, Repr

/-- The single GET request issued by crypto.py `get_market_data`:
`/coins/markets` with the comma-joined ids and the fixed parameters. -/
structure MarketRequest where
  ids : String
  vs_currency : String
  order : String
  price_change_percentage : String
deriving DecidableEq, Repr

/-- Outcome of one `requests.get` call: either the call raised a
`RequestException` (network error / timeout), or a response arrived with
a status code and a parse result for the JSON body (`Except.error` for a
malformed body). -/
inductive HttpOutcome (α : Type) where
  | netError : HttpOutcome α
  | response : ℕ → Except Unit α → HttpOutcome α

/-- The request crypto.py `get_market_data` builds from its arguments
(`ids = ",".join(coin_ids)` plus the fixed query parameters). -/
def marketRequest (coin_ids : List String) (currency : String) : MarketRequest :=
  { ids := String.intercalate "," coin_ids
    vs_currency := currency
    order := "market_cap_desc"
    price_change_percentage := "1h,24h,7d" }

/-- crypto.py `get_market_data` (lines 32-49): one GET to
`/coins/markets`; `raise_for_status` turns a 4xx/5xx status into an
exception; a raised `RequestException` (network error, error status, or
malformed JSON body) is caught and turned into `[]`; otherwise the
parsed body is returned unchanged. -/
def get_market_data (transport : MarketRequest → HttpOutcome (List QuoteRecord))
    (coin_ids : List String) (currency : String) : List QuoteRecord :=
  match transport (marketRequest coin_ids currency) with
  | .netError => []
  | .response status body =>
      if 400 ≤ status ∧ status < 600 then []
      else
        match body with
        | .error _ => []
        | .ok records => records

/-- The body of `get_market_data` performs exactly one `requests.get`
call, so its request trace per invocation is this singleton. -/
def marketDataRequests (coin_ids : List String) (currency : String) : List MarketRequest :=
  [marketRequest coin_ids currency]

/-- The request crypto.py `get_historical_data` builds:
`/coins/{coin_id}/market_chart`. -/
structure HistoricalRequest where
  coin_id : String
  vs_currency : String
  days : ℕ
deriving DecidableEq, Repr

/-- The parsed body of a market_chart response: (timestamp, price) rows. -/
structure HistoricalData where
  prices : List (Int × ℚ)
deriving DecidableEq, Repr

/-- crypto.py `get_historical_data` (lines 51-65): one GET; any caught
`RequestException` (network error, error status via `raise_for_status`,
malformed body) yields `None`, a successful parse is returned. -/
def get_historical_data (transport : HistoricalRequest → HttpOutcome HistoricalData)
    (coin_id : String) (currency : String) (days : ℕ) : Option HistoricalData :=
  match transport { coin_id := coin_id, vs_currency := currency, days := days } with
  | .netError => none
  | .response status body =>
      if 400 ≤ status ∧ status < 600 then none
      else
        match body with
        | .error _ => none
        | .ok d => some d

/-- The failure cases of one fetch: the call raised, the status was an
HTTP error (4xx/5xx, raised by `raise_for_status`), or the body did not
parse. -/
def httpFailure {α : Type} : HttpOutcome α → Prop
  | .netError => True
  | .response status body => (400 ≤ status ∧ status < 600) ∨ ∃ e, body = Except.error e

/-- Result shape of the spec's Fallback Orchestrator: the records of
whichever source was used, plus the flag telling the caller that the
fallback source produced them. -/
structure OrchestratorResult where
  records : List QuoteRecord
  usedFallback : Bool
deriving DecidableEq, Repr

/-- Modelled from the spec (§4.3): a primary result is usable if it is
non-empty and covers at least one requested identifier. -/
def specUsable (result : List QuoteRecord) (ids : List String) : Bool :=
  !result.isEmpty && result.any (fun r => ids.contains r.id)

/-- Modelled from the spec (§4.3 Fallback Orchestrator), for comparison
with the code's `get_market_data`: call the primary adapter; if its
result is unusable, call the secondary adapter and return its result
flagged as fallback; if both are unusable return the empty sequence.
No function in src/ implements this behaviour. -/
def specFallbackOrchestrator
    (primary secondary : List String → String → List QuoteRecord)
    (ids : List String) (currency : String) : OrchestratorResult :=
  let p := primary ids currency
  if specUsable p ids then ⟨p, false⟩
  else
    let s := secondary ids currency
    if specUsable s ids then ⟨s, true⟩ else ⟨[], true⟩

/-- One CoinMarketCap request of Crypto3.py `get_crypto_data`: each call
carries exactly one symbol. -/
structure CmcRequest where
  endpoint : String
  symbol : String
  convert : String
deriving DecidableEq, Repr

/-- The quotes/latest request for one symbol (Crypto3.py lines 38-42). -/
def cmcQuoteRequest (s : String) : CmcRequest :=
  { endpoint := "cryptocurrency/quotes/latest", symbol := s, convert := "USD" }

/-- The quotes/historical request for one symbol (Crypto3.py lines 46-54). -/
def cmcHistoricalRequest (s : String) : CmcRequest :=
  { endpoint := "cryptocurrency/quotes/historical", symbol := s, convert := "USD" }

/-- Outcome of one CoinMarketCap call together with the subsequent
parsing inside the per-symbol try block: the call or the field access
raised, the JSON had no 'data' key, or a payload was extracted (reduced
to the price, the only field the claims need). -/
inductive CmcOutcome where
  | raises : CmcOutcome
  | missingData : CmcOutcome
  | payload : ℚ → CmcOutcome

/-- One row Crypto3.py appends to `crypto_data`, reduced to the fields
the claims need ('Symbol' is the loop's symbol). -/
structure CmcRecord where
  symbol : String
  price : ℚ
deriving DecidableEq, Repr

/-- The per-symbol loop body of Crypto3.py `get_crypto_data`: for each
symbol, first the quote request; if it raises, the historical request is
never issued and the symbol goes to `invalid_symbols`; otherwise the
historical request follows; a raise or a missing 'data' key on either
response marks the symbol invalid; otherwise a record is appended.
Returns (records, issued requests, invalid symbols), each in loop
order. -/
def getCryptoDataAux (transport : CmcRequest → CmcOutcome) :
    List String → List CmcRecord × List CmcRequest × List String
  | [] => ([], [], [])
  | s :: rest =>
    let r := getCryptoDataAux transport rest
    match transport (cmcQuoteRequest s) with
    | .raises => (r.1, cmcQuoteRequest s :: r.2.1, s :: r.2.2)
    | q =>
      match transport (cmcHistoricalRequest s) with
      | .raises => (r.1, cmcQuoteRequest s :: cmcHistoricalRequest s :: r.2.1, s :: r.2.2)
      | h =>
        match q, h with
        | .payload price, .payload _ =>
            ({ symbol := s, price := price } :: r.1,
             cmcQuoteRequest s :: cmcHistoricalRequest s :: r.2.1, r.2.2)
        | _, _ => (r.1, cmcQuoteRequest s :: cmcHistoricalRequest s :: r.2.1, s :: r.2.2)

/-- Crypto3.py `get_crypto_data` (lines 27-109): iterate over
`symbols[:max_coins]`, one symbol at a time. -/
def get_crypto_data (transport : CmcRequest → CmcOutcome)
    (symbols : List String) (max_coins : ℕ) :
    List CmcRecord × List CmcRequest × List String :=
  getCryptoDataAux transport (symbols.take max_coins)

/-- Crypto4.py line 90: percent price change between the last two rows
(the division is unguarded, so a zero previous close follows the IEEE
rules of `FVal.div`). -/
def momentum_price_change (c1 c0 : ℚ) : FVal :=
  FVal.mul (FVal.div (FVal.val (c1 - c0)) (FVal.val c0)) (FVal.val 100)

/-- Crypto4.py line 91: percent volume change between the last two rows,
guarded to 0 when the previous volume is 0. -/
def momentum_volume_change (v1 v0 : ℚ) : FVal :=
  if v0 ≠ 0 then FVal.mul (FVal.div (FVal.val (v1 - v0)) (FVal.val v0)) (FVal.val 100)
  else FVal.val 0

/-- Crypto4.py `calculate_momentum_score` (lines 85-95): rows are
(Close, Volume) pairs, oldest first.  Fewer than two rows give 0;
otherwise the score is `price_change * 0.7 + volume_change * 0.3`
computed from the last two rows. -/
def calculate_momentum_score (rows : List (ℚ × ℚ)) : FVal :=
  match rows.reverse with
  | (c1, v1) :: (c0, v0) :: _ =>
      FVal.add (FVal.mul (momentum_price_change c1 c0) (FVal.val (7 / 10)))
               (FVal.mul (momentum_volume_change v1 v0) (FVal.val (3 / 10)))
  | _ => FVal.val 0

/-- One row of the hardcoded treasury table of
Crypto_Treasury_Tracker.py (lines 19-26). -/
structure CompanyRow where
  name : String
  symbol : String
  token : String
  holdings : ℚ
  market_cap : ℚ
deriving DecidableEq, Repr

/-- The six hardcoded company rows ("Holdings ($M)", "Market Cap ($M)"). -/
def treasuryData : List CompanyRow :=
  [ { name := "Bitmine Immersion Technologies", symbol := "BITM", token := "Ethereum",
      holdings := 250, market_cap := 2000 },
    { name := "SRM Entertainment / Tron Inc.", symbol := "SRM", token := "Tron",
      holdings := 100, market_cap := 800 },
    { name := "Volcon Inc.", symbol := "VCNX", token := "Bitcoin",
      holdings := 500, market_cap := 700 },
    { name := "Sequans Communications", symbol := "SQNS", token := "Bitcoin",
      holdings := 384, market_cap := 250 },
    { name := "Trump Media & Technology Group", symbol := "TMGT", token := "Bitcoin",
      holdings := 2000, market_cap := 5000 },
    { name := "Hype Treasury Co.", symbol := "HYPECO", token := "Hype",
      holdings := 305, market_cap := 1000 } ]

/-- Crypto_Treasury_Tracker.py line 64:
`premium = market_cap / nav if nav else None` — Python truthiness of the
number `nav` is `nav ≠ 0`. -/
def impliedPremium (row : CompanyRow) : Option ℚ :=
  if row.holdings ≠ 0 then some (row.market_cap / row.holdings) else none

/-- The premium loop (lines 58-67): one premium per table row, in row
order. -/
def treasuryPremiums (rows : List CompanyRow) : List (Option ℚ) :=
  rows.map impliedPremium

/-- crypto.py lines 188-189: append the coin only if it is not already
an element (exact string comparison). -/
def watchlist_add (watchlist : List String) (coin : String) : List String :=
  if coin ∈ watchlist then watchlist else watchlist ++ [coin]

/-- crypto.py line 200: `st.session_state.watchlist.remove(coin)` —
Python `list.remove` deletes the first exact occurrence. -/
def watchlist_remove (watchlist : List String) (coin : String) : List String :=
  watchlist.erase coin

/-- crypto.py line 159: `list(set(watchlist + new_coins))` — a Python
set fixes the element set (exact string equality) but leaves the
iteration order unspecified, so the bulk import is modelled as a
relation between inputs and a possible result list. -/
def bulkImportResult (watchlist new_coins result : List String) : Prop :=
  result.Nodup ∧ ∀ x, x ∈ result ↔ (x ∈ watchlist ∨ x ∈ new_coins)

/-- Python `str.lower` on an ASCII identifier, at the character-list
level. -/
def lowerChars (s : String) : List Char :=
  s.data.map Char.toLower

/-- The claimed watchlist invariant: identifiers are pairwise distinct
after lowercasing (case-insensitive uniqueness). -/
def ciDistinct (watchlist : List String) : Prop :=
  (watchlist.map lowerChars).Nodup

theorem rollingMean_length (xs : List FVal) (w : ℕ) :
    (rollingMean xs w).length = xs.length := by
  simp [rollingMean]

theorem rollingMean_getElem (xs : List FVal) (w i : ℕ) (h : i < xs.length) :
    (rollingMean xs w)[i]? =
      some (if i + 1 < w then FVal.nan
            else windowMean ((xs.take (i + 1)).drop (i + 1 - w)) w) := by
  simp [rollingMean, List.getElem?_map, List.getElem?_range h]

theorem seriesDiff_length (prices : List ℚ) :
    (seriesDiff prices).length = prices.length := by
  cases prices with
  | nil => rfl
  | cons p rest => simp [seriesDiff, List.length_zipWith]

theorem rsiGains_length (prices : List ℚ) :
    (rsiGains prices).length = prices.length := by
  simp [rsiGains, seriesDiff_length]

theorem rsiLosses_length (prices : List ℚ) :
    (rsiLosses prices).length = prices.length := by
  simp [rsiLosses, seriesDiff_length]

theorem ewmGo_length (a : ℚ) (xs : List ℚ) : ∀ e, (ewmGo a e xs).length = xs.length + 1 := by
  induction xs with
  | nil => intro e; rfl
  | cons y ys ih => intro e; simp [ewmGo, ih]

theorem calculate_ema_length (prices : List ℚ) (window : ℕ) :
    (calculate_ema prices window).length = prices.length := by
  cases prices with
  | nil => rfl
  | cons x xs => simp [calculate_ema, ewmGo_length]

theorem calculate_sma_length (prices : List ℚ) (window : ℕ) :
    (calculate_sma prices window).length = prices.length := by
  simp [calculate_sma, rollingMean_length]

theorem calculate_rsi_length (prices : List ℚ) (window : ℕ) :
    (calculate_rsi prices window).length = prices.length := by
  simp [calculate_rsi, rsiAvgGain, rsiAvgLoss, List.length_zipWith, rollingMean_length,
    rsiGains_length, rsiLosses_length]

theorem rsiGains_head (p : ℚ) (rest : List ℚ) :
    (rsiGains (p :: rest))[0]? = some FVal.nan := by
  simp [rsiGains, seriesDiff, clipLower0]

theorem rsiLosses_head (p : ℚ) (rest : List ℚ) :
    (rsiLosses (p :: rest))[0]? = some FVal.nan := by
  simp [rsiLosses, seriesDiff, clipUpper0, FVal.neg]

theorem hasNanEntry_of_head (rest : List FVal) :
    hasNanEntry (FVal.nan :: rest) = true := rfl

theorem rollingMean_getElem_nan (xs : List FVal) (w i : ℕ) (hi : i < xs.length)
    (hw : i < w) (hx : xs[0]? = some FVal.nan) :
    (rollingMean xs w)[i]? = some FVal.nan := by
  rw [rollingMean_getElem xs w i hi]
  by_cases hlt : i + 1 < w
  · simp [hlt]
  · have hweq : i + 1 - w = 0 := by omega
    cases xs with
    | nil => simp at hi
    | cons x rest =>
      have hx0 : x = FVal.nan := by simpa using hx
      subst hx0
      simp [hlt, hweq, windowMean, List.take_succ_cons, hasNanEntry_of_head]

theorem zipWith_sub_val_mem (as bs : List ℚ) :
    ∀ x ∈ List.zipWith (fun a b => FVal.val (a - b)) as bs, ∃ r : ℚ, x = FVal.val r := by
  induction as generalizing bs with
  | nil => intro x hx; simp at hx
  | cons a arest ih =>
    intro x hx
    cases bs with
    | nil => simp at hx
    | cons b brest =>
      simp only [List.zipWith_cons_cons, List.mem_cons] at hx
      rcases hx with h | h
      · exact ⟨a - b, h⟩
      · exact ih brest x h

theorem seriesDiff_mem (prices : List ℚ) :
    ∀ x ∈ seriesDiff prices, x = FVal.nan ∨ ∃ r : ℚ, x = FVal.val r := by
  cases prices with
  | nil => intro x hx; simp [seriesDiff] at hx
  | cons p rest =>
    intro x hx
    simp only [seriesDiff, List.mem_cons] at hx
    rcases hx with h | h
    · exact Or.inl h
    · exact Or.inr (zipWith_sub_val_mem rest (p :: rest) x h)

theorem rsiGains_mem (prices : List ℚ) :
    ∀ x ∈ rsiGains prices, x = FVal.nan ∨ ∃ r : ℚ, x = FVal.val r ∧ 0 ≤ r := by
  intro x hx
  simp only [rsiGains, List.mem_map] at hx
  obtain ⟨d, hd, hdx⟩ := hx
  rcases seriesDiff_mem prices d hd with h | ⟨r, h⟩ <;> subst h <;> subst hdx
  · exact Or.inl rfl
  · refine Or.inr ⟨if r ≤ 0 then 0 else r, rfl, ?_⟩
    by_cases hr : r ≤ 0
    · simp [hr]
    · simp only [if_neg hr]; linarith

theorem rsiLosses_mem (prices : List ℚ) :
    ∀ x ∈ rsiLosses prices, x = FVal.nan ∨ ∃ r : ℚ, x = FVal.val r ∧ 0 ≤ r := by
  intro x hx
  simp only [rsiLosses, List.mem_map] at hx
  obtain ⟨d, hd, hdx⟩ := hx
  rcases seriesDiff_mem prices d hd with h | ⟨r, h⟩ <;> subst h <;> subst hdx
  · exact Or.inl rfl
  · refine Or.inr ⟨-(if r ≤ 0 then r else 0), rfl, ?_⟩
    by_cases hr : r ≤ 0
    · simp only [if_pos hr]; linarith
    · simp [hr]

theorem hasNanEntry_eq_false (ys : List FVal) (h : hasNanEntry ys = false) :
    ∀ x ∈ ys, x ≠ FVal.nan := by
  induction ys with
  | nil => intro x hx; simp at hx
  | cons y rest ih =>
    intro x hx
    cases y with
    | nan => simp [hasNanEntry] at h
    | negInf =>
      rcases List.mem_cons.mp hx with h1 | h1
      · subst h1; simp
      · exact ih (by simpa [hasNanEntry] using h) x h1
    | val a =>
      rcases List.mem_cons.mp hx with h1 | h1
      · subst h1; simp
      · exact ih (by simpa [hasNanEntry] using h) x h1
    | inf =>
      rcases List.mem_cons.mp hx with h1 | h1
      · subst h1; simp
      · exact ih (by simpa [hasNanEntry] using h) x h1

theorem foldr_add_val (ys : List FVal)
    (h : ∀ x ∈ ys, ∃ r : ℚ, x = FVal.val r ∧ 0 ≤ r) :
    ∃ s : ℚ, ys.foldr FVal.add (FVal.val 0) = FVal.val s ∧ 0 ≤ s := by
  induction ys with
  | nil => exact ⟨0, rfl, le_refl 0⟩
  | cons y rest ih =>
    obtain ⟨r, hy, hr⟩ := h y (List.mem_cons_self y rest)
    obtain ⟨s, hs, hs0⟩ := ih (fun x hx => h x (List.mem_cons_of_mem y hx))
    refine ⟨r + s, ?_, by linarith⟩
    simp [List.foldr_cons, hs, hy, FVal.add]

theorem windowMean_val_nonneg (ys : List FVal) (w : ℕ) (q : ℚ)
    (hmem : ∀ x ∈ ys, x = FVal.nan ∨ ∃ r : ℚ, x = FVal.val r ∧ 0 ≤ r)
    (h : windowMean ys w = FVal.val q) : 0 ≤ q := by
  unfold windowMean at h
  by_cases hn : hasNanEntry ys
  · simp [hn] at h
  · rw [if_neg hn] at h
    have hvals : ∀ x ∈ ys, ∃ r : ℚ, x = FVal.val r ∧ 0 ≤ r := by
      intro x hx
      rcases hmem x hx with hnan | hv
      · exact absurd hnan (hasNanEntry_eq_false ys (by simpa using hn) x hx)
      · exact hv
    obtain ⟨s, hs, hs0⟩ := foldr_add_val ys hvals
    rw [hs] at h
    by_cases hw : (w : ℚ) = 0
    · rcases lt_trichotomy (0 : ℚ) s with hlt | heq | hlt
      · simp [FVal.div, hw, hlt] at h
      · simp [FVal.div, hw, ← heq] at h
      · linarith
    · rw [show FVal.div (FVal.val s) (FVal.val (w : ℚ)) = FVal.val (s / w) by
        simp [FVal.div, hw]] at h
      have : q = s / (w : ℚ) := by simpa using h.symm
      subst this
      exact div_nonneg hs0 (by positivity)

theorem rollingMean_val_nonneg (xs : List FVal) (w i : ℕ) (q : ℚ)
    (hmem : ∀ x ∈ xs, x = FVal.nan ∨ ∃ r : ℚ, x = FVal.val r ∧ 0 ≤ r)
    (h : (rollingMean xs w)[i]? = some (FVal.val q)) : 0 ≤ q := by
  have hi : i < xs.length := by
    by_contra hge
    rw [List.getElem?_eq_none (by rw [rollingMean_length]; omega)] at h
    exact Option.noConfusion h
  rw [rollingMean_getElem xs w i hi] at h
  by_cases hlt : i + 1 < w
  · simp [hlt] at h
  · rw [if_neg hlt] at h
    have hmean : windowMean ((xs.take (i + 1)).drop (i + 1 - w)) w = FVal.val q := by
      simpa using h
    refine windowMean_val_nonneg _ w q ?_ hmean
    intro x hx
    exact hmem x (((List.drop_sublist _ _).trans (List.take_sublist _ _)).mem hx)

/-- C4 (counterexample): on the flat series [5, 5, 5] with window 2 the
trailing-window average loss at position 2 is exactly 0, yet
`calculate_rsi` yields NaN there, not 100 — the claimed explicit guard
does not exist in the code. -/
theorem C4_rsi_zero_loss_counterexample :
    (rsiAvgLoss [5, 5, 5] 2)[2]? = some (FVal.val 0) ∧
    (calculate_rsi [5, 5, 5] 2)[2]? = some FVal.nan ∧
    FVal.nan ≠ FVal.val 100 := by
  refine ⟨?_, ?_, by simp⟩
  · norm_num [rsiAvgLoss, rsiLosses, rollingMean, windowMean, hasNanEntry, seriesDiff,
      clipUpper0, FVal.neg, FVal.add, FVal.div, List.range_succ]
  · norm_num [calculate_rsi, rsiAvgGain, rsiAvgLoss, rsiGains, rsiLosses, rollingMean,
      windowMean, hasNanEntry, seriesDiff, clipLower0, clipUpper0, FVal.neg, FVal.add,
      FVal.div, FVal.sub, List.range_succ]

/-- C4 (amended): at a position where the trailing-window average loss
is exactly 0, `calculate_rsi` yields 100 when the average gain there is
positive — through IEEE division by zero, not an explicit guard — and
yields NaN when the average gain is 0 as well. -/
theorem C4_rsi_zero_loss_amended (prices : List ℚ) (window i : ℕ) (g : ℚ)
    (hloss : (rsiAvgLoss prices window)[i]? = some (FVal.val 0))
    (hgain : (rsiAvgGain prices window)[i]? = some (FVal.val g)) :
    (0 < g → (calculate_rsi prices window)[i]? = some (FVal.val 100)) ∧
    (g = 0 → (calculate_rsi prices window)[i]? = some FVal.nan) := by
  have hrs : (List.zipWith FVal.div (rsiAvgGain prices window) (rsiAvgLoss prices window))[i]?
      = some (FVal.div (FVal.val g) (FVal.val 0)) := by
    rw [List.getElem?_zipWith, hgain, hloss]
  constructor
  · intro hg
    have hdiv : FVal.div (FVal.val g) (FVal.val 0) = FVal.inf := by
      simp [FVal.div, hg]
    simp [calculate_rsi, List.getElem?_map, hrs, hdiv, hg, FVal.add, FVal.div, FVal.sub,
      FVal.neg]
  · intro hg
    subst hg
    have hdiv : FVal.div (FVal.val 0) (FVal.val 0) = FVal.nan := by
      simp [FVal.div]
    simp [calculate_rsi, List.getElem?_map, hrs, hdiv, FVal.add, FVal.div, FVal.sub, FVal.neg]

/-- C4 (witness): on [1, 2, 3] with window 2 the average loss at
position 2 is 0, the average gain is 1, and the RSI there is exactly
100. -/
theorem C4_rsi_zero_loss_witness :
    (calculate_rsi [1, 2, 3] 2)[2]? = some (FVal.val 100) :=
  (C4_rsi_zero_loss_amended [1, 2, 3] 2 2 1
    (by norm_num [rsiAvgLoss, rsiLosses, rollingMean, windowMean, hasNanEntry, seriesDiff,
      clipUpper0, FVal.neg, FVal.add, FVal.div, List.range_succ])
    (by norm_num [rsiAvgGain, rsiGains, rollingMean, windowMean, hasNanEntry, seriesDiff,
      clipLower0, FVal.add, FVal.div, List.range_succ])).1 (by norm_num)

/-- C5 (counterexample): `calculate_ema` (pandas `ewm(adjust=False)`) is
defined from position 0 onwards — on [1, 2, 3] with window 3, position 0
(which lies before index w-1 = 2) carries the value 1, not an
undefined/null entry. -/
theorem C5_aligned_series_counterexample :
    ((calculate_ema [1, 2, 3] 3).map FVal.val)[0]? = some (FVal.val 1) ∧
    FVal.val 1 ≠ FVal.nan := by
  constructor
  · norm_num [calculate_ema, ewmGo]
  · simp

/-- C5 (amended): all three indicator outputs have the same length as
the input; `calculate_sma` is NaN at every position before index
window-1; `calculate_rsi` is NaN at every position before index window
(one more than claimed, because the first delta is NaN); but
`calculate_ema` carries a value at every position from index 0, so its
leading positions are not undefined. -/
theorem C5_aligned_series_amended (prices : List ℚ) (window i : ℕ) :
    (calculate_sma prices window).length = prices.length ∧
    (calculate_ema prices window).length = prices.length ∧
    (calculate_rsi prices window).length = prices.length ∧
    (i + 1 < window → i < prices.length →
      (calculate_sma prices window)[i]? = some FVal.nan) ∧
    (i < window → i < prices.length →
      (calculate_rsi prices window)[i]? = some FVal.nan) ∧
    (i < prices.length → ∃ q : ℚ, (calculate_ema prices window)[i]? = some q) := by
  refine ⟨calculate_sma_length prices window, calculate_ema_length prices window,
    calculate_rsi_length prices window, ?_, ?_, ?_⟩
  · intro hw hi
    rw [calculate_sma, rollingMean_getElem _ _ _ (by simpa using hi)]
    simp [hw]
  · intro hw hi
    cases prices with
    | nil => simp at hi
    | cons p rest =>
      have hglen : i < (rsiGains (p :: rest)).length := by
        rw [rsiGains_length]; exact hi
      have hllen : i < (rsiLosses (p :: rest)).length := by
        rw [rsiLosses_length]; exact hi
      have hg : (rsiAvgGain (p :: rest) window)[i]? = some FVal.nan :=
        rollingMean_getElem_nan _ _ _ hglen hw (rsiGains_head p rest)
      have hl : (rsiAvgLoss (p :: rest) window)[i]? = some FVal.nan :=
        rollingMean_getElem_nan _ _ _ hllen hw (rsiLosses_head p rest)
      have hrs : (List.zipWith FVal.div (rsiAvgGain (p :: rest) window)
          (rsiAvgLoss (p :: rest) window))[i]? = some (FVal.div FVal.nan FVal.nan) := by
        rw [List.getElem?_zipWith, hg, hl]
      simp [calculate_rsi, List.getElem?_map, hrs, FVal.div, FVal.add, FVal.sub, FVal.neg]
  · intro hi
    have hlt : i < (calculate_ema prices window).length := by
      rw [calculate_ema_length]; exact hi
    exact ⟨_, List.getElem?_eq_getElem hlt⟩

/-- C5 (witness): on [1, 2, 3] with window 3 the SMA is NaN at position
1, the RSI is NaN at position 2, and the EMA carries a value at
position 0. -/
theorem C5_aligned_series_witness :
    (calculate_sma [(1 : ℚ), 2, 3] 3)[1]? = some FVal.nan ∧
    (calculate_rsi [(1 : ℚ), 2, 3] 3)[2]? = some FVal.nan ∧
    ∃ q : ℚ, (calculate_ema [(1 : ℚ), 2, 3] 3)[0]? = some q :=
  ⟨(C5_aligned_series_amended [1, 2, 3] 3 1).2.2.2.1 (by norm_num) (by norm_num),
   (C5_aligned_series_amended [1, 2, 3] 3 2).2.2.2.2.1 (by norm_num) (by norm_num),
   (C5_aligned_series_amended [1, 2, 3] 3 0).2.2.2.2.2 (by norm_num)⟩

/-- C6: wherever the trailing-window average loss is a nonzero value and
`calculate_rsi` yields a value, that value lies in the closed interval
[0, 100]. -/
theorem C6_rsi_bounds (prices : List ℚ) (window i : ℕ) (q v : ℚ)
    (hloss : (rsiAvgLoss prices window)[i]? = some (FVal.val q)) (hq : q ≠ 0)
    (hrsi : (calculate_rsi prices window)[i]? = some (FVal.val v)) :
    0 ≤ v ∧ v ≤ 100 := by
  have hq0 : 0 ≤ q := by
    have h' := hloss
    simp only [rsiAvgLoss] at h'
    exact rollingMean_val_nonneg _ window i q (rsiLosses_mem prices) h'
  have hqpos : 0 < q := lt_of_le_of_ne hq0 (Ne.symm hq)
  cases hag : (rsiAvgGain prices window)[i]? with
  | none =>
    have hrs : (List.zipWith FVal.div (rsiAvgGain prices window)
        (rsiAvgLoss prices window))[i]? = none := by
      rw [List.getElem?_zipWith, hag]
    rw [calculate_rsi, List.getElem?_map, hrs] at hrsi
    simp at hrsi
  | some gv =>
    cases gv with
    | nan =>
      have hrs : (List.zipWith FVal.div (rsiAvgGain prices window)
          (rsiAvgLoss prices window))[i]? = some FVal.nan := by
        rw [List.getElem?_zipWith, hag, hloss]
        rfl
      rw [calculate_rsi, List.getElem?_map, hrs] at hrsi
      simp [FVal.add, FVal.div, FVal.sub, FVal.neg] at hrsi
    | inf =>
      have hrs : (List.zipWith FVal.div (rsiAvgGain prices window)
          (rsiAvgLoss prices window))[i]? = some FVal.inf := by
        rw [List.getElem?_zipWith, hag, hloss]
        simp [FVal.div, hq0]
      rw [calculate_rsi, List.getElem?_map, hrs] at hrsi
      have h100 : v = 100 := by
        simp [FVal.add, FVal.div, FVal.sub, FVal.neg] at hrsi
        linarith [hrsi]
      constructor <;> simp [h100]
    | negInf =>
      have hrs : (List.zipWith FVal.div (rsiAvgGain prices window)
          (rsiAvgLoss prices window))[i]? = some FVal.negInf := by
        rw [List.getElem?_zipWith, hag, hloss]
        simp [FVal.div, hq0]
      rw [calculate_rsi, List.getElem?_map, hrs] at hrsi
      have h100 : v = 100 := by
        simp [FVal.add, FVal.div, FVal.sub, FVal.neg] at hrsi
        linarith [hrsi]
      constructor <;> simp [h100]
    | val g =>
      have hg0 : 0 ≤ g := by
        have h' := hag
        simp only [rsiAvgGain] at h'
        exact rollingMean_val_nonneg _ window i g (rsiGains_mem prices) h'
      have hr0 : 0 ≤ g / q := div_nonneg hg0 hq0
      have h1r : (0 : ℚ) < 1 + g / q := by linarith
      have hne : (1 : ℚ) + g / q ≠ 0 := ne_of_gt h1r
      have hrs : (List.zipWith FVal.div (rsiAvgGain prices window)
          (rsiAvgLoss prices window))[i]? = some (FVal.val (g / q)) := by
        rw [List.getElem?_zipWith, hag, hloss]
        simp [FVal.div, hq]
      rw [calculate_rsi, List.getElem?_map, hrs] at hrsi
      simp only [Option.map_some', Option.some.injEq] at hrsi
      rw [show FVal.add (FVal.val 1) (FVal.val (g / q)) = FVal.val (1 + g / q) from by
        simp [FVal.add]] at hrsi
      rw [show FVal.div (FVal.val 100) (FVal.val (1 + g / q)) = FVal.val (100 / (1 + g / q))
        from by simp [FVal.div, hne]] at hrsi
      have hv : 100 - 100 / (1 + g / q) = v := by
        simpa [FVal.sub, FVal.neg, FVal.add, sub_eq_add_neg] using hrsi
      have hle : 100 / (1 + g / q) ≤ 100 := by
        apply div_le_self (by norm_num) (by linarith)
      have hpos : 0 < 100 / (1 + g / q) := div_pos (by norm_num) h1r
      constructor <;> linarith

/-- C6 (witness): on [1, 2, 1, 2] with window 2 the average loss at
position 2 is 1/2 (nonzero), the RSI there is the value 50, and 50 lies
in [0, 100]. -/
theorem C6_rsi_bounds_witness :
    (calculate_rsi [(1 : ℚ), 2, 1, 2] 2)[2]? = some (FVal.val 50) ∧
    0 ≤ (50 : ℚ) ∧ (50 : ℚ) ≤ 100 :=
  ⟨by norm_num [calculate_rsi, rsiAvgGain, rsiAvgLoss, rsiGains, rsiLosses, rollingMean,
      windowMean, hasNanEntry, seriesDiff, clipLower0, clipUpper0, FVal.neg, FVal.add,
      FVal.div, FVal.sub, List.range_succ],
   C6_rsi_bounds [1, 2, 1, 2] 2 2 (1 / 2) 50
    (by norm_num [rsiAvgLoss, rsiLosses, rollingMean, windowMean, hasNanEntry, seriesDiff,
      clipUpper0, FVal.neg, FVal.add, FVal.div, List.range_succ])
    (by norm_num)
    (by norm_num [calculate_rsi, rsiAvgGain, rsiAvgLoss, rsiGains, rsiLosses, rollingMean,
      windowMean, hasNanEntry, seriesDiff, clipLower0, clipUpper0, FVal.neg, FVal.add,
      FVal.div, FVal.sub, List.range_succ])⟩

/-- C7: `calculate_macd` with fast 12, slow 26, signal 9 returns a MACD
line of the input's length whose entries are pointwise
`calculate_ema 12` minus `calculate_ema 26`, and a signal line of the
input's length equal to `calculate_ema` of the MACD line with window
9. -/
theorem C7_macd_relation (prices : List ℚ) :
    (calculate_macd prices 12 26 9).1.length = prices.length ∧
    (calculate_macd prices 12 26 9).2.length = prices.length ∧
    (∀ (i : ℕ) (a b : ℚ), (calculate_ema prices 12)[i]? = some a →
      (calculate_ema prices 26)[i]? = some b →
      (calculate_macd prices 12 26 9).1[i]? = some (a - b)) ∧
    (calculate_macd prices 12 26 9).2 = calculate_ema (calculate_macd prices 12 26 9).1 9 := by
  have hzip : (calculate_macd prices 12 26 9).1
      = List.zipWith (fun x y : ℚ => x - y) (calculate_ema prices 12)
          (calculate_ema prices 26) := rfl
  have hsig : (calculate_macd prices 12 26 9).2
      = calculate_ema (calculate_macd prices 12 26 9).1 9 := rfl
  have hlen : (calculate_macd prices 12 26 9).1.length = prices.length := by
    rw [hzip]
    simp [List.length_zipWith, calculate_ema_length]
  refine ⟨hlen, ?_, ?_, hsig⟩
  · rw [hsig, calculate_ema_length]
    exact hlen
  · intro i a b ha hb
    rw [hzip, List.getElem?_zipWith, ha, hb]

/-- C7 (witness): on the series [1, 2] the MACD line at position 1 is
the fast EMA value 15/13 minus the slow EMA value 29/27. -/
theorem C7_macd_relation_witness :
    (calculate_macd [(1 : ℚ), 2] 12 26 9).1[1]? = some ((15 : ℚ) / 13 - 29 / 27) :=
  (C7_macd_relation [1, 2]).2.2.1 1 (15 / 13) (29 / 27)
    (by norm_num [calculate_ema, ewmGo]) (by norm_num [calculate_ema, ewmGo])

/-- A finite IEEE value plus the value 0 is unchanged (also for NaN and
the infinities). -/
theorem FVal.add_val_zero (x : FVal) : FVal.add x (FVal.val 0) = x := by
  cases x <;> simp [FVal.add]

/-- C1 (counterexample): when the single request fails, crypto.py's
`get_market_data` returns the empty list — whereas the spec's Fallback
Orchestrator, with a failing primary and a secondary returning two
records, would return those two records flagged as fallback.  The code
has no secondary adapter and no fallback flag. -/
theorem C1_no_fallback_counterexample :
    get_market_data (fun _ => HttpOutcome.netError) ["bitcoin", "ethereum"] "usd" = [] ∧
    specFallbackOrchestrator (fun _ _ => [])
      (fun _ _ =>
        [{ id := "bitcoin", name := "Bitcoin", symbol := "btc", current_price := 50000 },
         { id := "ethereum", name := "Ethereum", symbol := "eth", current_price := 3000 }])
      ["bitcoin", "ethereum"] "usd"
      = { records :=
            [{ id := "bitcoin", name := "Bitcoin", symbol := "btc", current_price := 50000 },
             { id := "ethereum", name := "Ethereum", symbol := "eth", current_price := 3000 }],
          usedFallback := true } := by
  constructor
  · rfl
  · rfl

/-- C1 (amended): `get_market_data` consults exactly one source: it
issues a single request, returns the parsed body of a successful
(non-4xx/5xx) response unchanged, and returns the empty list on every
failure; no secondary adapter exists and no fallback flag is
produced. -/
theorem C1_single_source_amended
    (transport : MarketRequest → HttpOutcome (List QuoteRecord))
    (coin_ids : List String) (currency : String) :
    marketDataRequests coin_ids currency = [marketRequest coin_ids currency] ∧
    (∀ (status : ℕ) (records : List QuoteRecord),
      transport (marketRequest coin_ids currency)
        = HttpOutcome.response status (Except.ok records) →
      ¬(400 ≤ status ∧ status < 600) →
      get_market_data transport coin_ids currency = records) ∧
    (httpFailure (transport (marketRequest coin_ids currency)) →
      get_market_data transport coin_ids currency = []) := by
  refine ⟨rfl, ?_, ?_⟩
  · intro status records h hstat
    unfold get_market_data
    rw [h]
    simp [hstat]
  · intro hfail
    unfold get_market_data
    cases htr : transport (marketRequest coin_ids currency) with
    | netError => rfl
    | response status body =>
      rw [htr] at hfail
      rcases hfail with hstat | ⟨e, hbody⟩
      · simp [hstat]
      · subst hbody
        by_cases hstat : 400 ≤ status ∧ status < 600 <;> simp [hstat]

/-- C1 (witness): a 200 response with one parsed record is handed back
unchanged. -/
theorem C1_single_source_witness :
    get_market_data
      (fun _ => HttpOutcome.response 200
        (Except.ok [{ id := "bitcoin", name := "Bitcoin", symbol := "btc",
                      current_price := 50000 }]))
      ["bitcoin"] "usd"
      = [{ id := "bitcoin", name := "Bitcoin", symbol := "btc", current_price := 50000 }] :=
  (C1_single_source_amended _ ["bitcoin"] "usd").2.1 200 _ rfl (by norm_num)

/-- C3: whenever the single fetch fails — the call raised, the status
was 4xx/5xx (raised by `raise_for_status`), or the body did not parse —
`get_market_data` returns the empty list and `get_historical_data`
returns None; no exception escapes either function. -/
theorem C3_failure_degrades
    (tm : MarketRequest → HttpOutcome (List QuoteRecord))
    (th : HistoricalRequest → HttpOutcome HistoricalData)
    (coin_ids : List String) (currency coin_id : String) (days : ℕ) :
    (httpFailure (tm (marketRequest coin_ids currency)) →
      get_market_data tm coin_ids currency = []) ∧
    (httpFailure (th { coin_id := coin_id, vs_currency := currency, days := days }) →
      get_historical_data th coin_id currency days = none) := by
  constructor
  · intro hfail
    unfold get_market_data
    cases htr : tm (marketRequest coin_ids currency) with
    | netError => rfl
    | response status body =>
      rw [htr] at hfail
      rcases hfail with hstat | ⟨e, hbody⟩
      · simp [hstat]
      · subst hbody
        by_cases hstat : 400 ≤ status ∧ status < 600 <;> simp [hstat]
  · intro hfail
    unfold get_historical_data
    cases htr : th { coin_id := coin_id, vs_currency := currency, days := days } with
    | netError => rfl
    | response status body =>
      rw [htr] at hfail
      rcases hfail with hstat | ⟨e, hbody⟩
      · simp [hstat]
      · subst hbody
        by_cases hstat : 400 ≤ status ∧ status < 600 <;> simp [hstat]

/-- C3 (witness): a raised request yields `[]` for market data and
`none` for historical data. -/
theorem C3_failure_degrades_witness :
    get_market_data (fun _ => HttpOutcome.netError) ["bitcoin"] "usd" = [] ∧
    get_historical_data (fun _ => HttpOutcome.netError) "bitcoin" "usd" 7 = none :=
  ⟨(C3_failure_degrades (fun _ => HttpOutcome.netError) (fun _ => HttpOutcome.netError)
      ["bitcoin"] "usd" "bitcoin" 7).1 trivial,
   (C3_failure_degrades (fun _ => HttpOutcome.netError) (fun _ => HttpOutcome.netError)
      ["bitcoin"] "usd" "bitcoin" 7).2 trivial⟩

theorem getCryptoDataAux_records_sublist (transport : CmcRequest → CmcOutcome)
    (symbols : List String) :
    ((getCryptoDataAux transport symbols).1.map CmcRecord.symbol).Sublist symbols := by
  induction symbols with
  | nil => simp [getCryptoDataAux]
  | cons s rest ih =>
    rw [getCryptoDataAux]
    cases hq : transport (cmcQuoteRequest s) with
    | raises => exact ih.cons s
    | missingData =>
      cases hh : transport (cmcHistoricalRequest s) with
      | raises => exact ih.cons s
      | missingData => exact ih.cons s
      | payload p => exact ih.cons s
    | payload p =>
      cases hh : transport (cmcHistoricalRequest s) with
      | raises => exact ih.cons s
      | missingData => exact ih.cons s
      | payload p2 => simpa using ih.cons₂ s

theorem getCryptoDataAux_requests_symbol (transport : CmcRequest → CmcOutcome)
    (symbols : List String) :
    ∀ req ∈ (getCryptoDataAux transport symbols).2.1, req.symbol ∈ symbols := by
  induction symbols with
  | nil => intro req hreq; simp [getCryptoDataAux] at hreq
  | cons s rest ih =>
    intro req hreq
    rw [getCryptoDataAux] at hreq
    cases hq : transport (cmcQuoteRequest s) with
    | raises =>
      rw [hq] at hreq
      rcases List.mem_cons.mp hreq with h | h
      · subst h; exact List.mem_cons_self s rest
      · exact List.mem_cons_of_mem s (ih req h)
    | missingData =>
      rw [hq] at hreq
      cases hh : transport (cmcHistoricalRequest s) <;> rw [hh] at hreq <;>
        rcases List.mem_cons.mp hreq with h | h
      · subst h; exact List.mem_cons_self s rest
      · rcases List.mem_cons.mp h with h1 | h1
        · subst h1; exact List.mem_cons_self s rest
        · exact List.mem_cons_of_mem s (ih req h1)
      · subst h; exact List.mem_cons_self s rest
      · rcases List.mem_cons.mp h with h1 | h1
        · subst h1; exact List.mem_cons_self s rest
        · exact List.mem_cons_of_mem s (ih req h1)
      · subst h; exact List.mem_cons_self s rest
      · rcases List.mem_cons.mp h with h1 | h1
        · subst h1; exact List.mem_cons_self s rest
        · exact List.mem_cons_of_mem s (ih req h1)
    | payload p =>
      rw [hq] at hreq
      cases hh : transport (cmcHistoricalRequest s) <;> rw [hh] at hreq <;>
        rcases List.mem_cons.mp hreq with h | h
      · subst h; exact List.mem_cons_self s rest
      · rcases List.mem_cons.mp h with h1 | h1
        · subst h1; exact List.mem_cons_self s rest
        · exact List.mem_cons_of_mem s (ih req h1)
      · subst h; exact List.mem_cons_self s rest
      · rcases List.mem_cons.mp h with h1 | h1
        · subst h1; exact List.mem_cons_self s rest
        · exact List.mem_cons_of_mem s (ih req h1)
      · subst h; exact List.mem_cons_self s rest
      · rcases List.mem_cons.mp h with h1 | h1
        · subst h1; exact List.mem_cons_self s rest
        · exact List.mem_cons_of_mem s (ih req h1)

/-- C2 (counterexample): with 23 identifiers, crypto.py's
`get_market_data` issues exactly one request — carrying all 23
identifiers comma-joined — not 3 batched requests of sizes 10, 10, 3. -/
theorem C2_batching_counterexample :
    (marketDataRequests ((List.range 23).map (fun i => "coin" ++ toString i)) "usd").length
      = 1 ∧
    (marketDataRequests ((List.range 23).map (fun i => "coin" ++ toString i)) "usd").length
      ≠ 3 := by
  constructor <;> simp [marketDataRequests]

/-- C2 (amended): no batching to a per-call limit exists.  crypto.py's
`get_market_data` issues exactly one request per call whose ids
parameter is the comma-join of all identifiers; Crypto3.py's
`get_crypto_data` issues per-symbol requests (each carrying exactly one
symbol, drawn from the first max_coins input symbols) and its merged
result preserves the input symbol order. -/
theorem C2_batching_amended (transport : CmcRequest → CmcOutcome)
    (coin_ids symbols : List String) (currency : String) (max_coins : ℕ) :
    marketDataRequests coin_ids currency = [marketRequest coin_ids currency] ∧
    (marketRequest coin_ids currency).ids = String.intercalate "," coin_ids ∧
    ((get_crypto_data transport symbols max_coins).1.map CmcRecord.symbol).Sublist
      (symbols.take max_coins) ∧
    (∀ req ∈ (get_crypto_data transport symbols max_coins).2.1,
      req.symbol ∈ symbols.take max_coins) :=
  ⟨rfl, rfl, getCryptoDataAux_records_sublist transport (symbols.take max_coins),
   getCryptoDataAux_requests_symbol transport (symbols.take max_coins)⟩

/-- C2 (witness): with a transport that always answers, the first quote
request issued for ["BTC", "ETH"] carries the single symbol "BTC" from
the input list. -/
theorem C2_batching_witness :
    (cmcQuoteRequest "BTC").symbol ∈ ["BTC", "ETH"].take 2 :=
  (C2_batching_amended (fun _ => CmcOutcome.payload 1) ["bitcoin"] ["BTC", "ETH"] "usd" 2).2.2.2
    (cmcQuoteRequest "BTC") (by decide)

/-- C8 (counterexample): uniqueness is enforced by exact string match,
not case-insensitively: adding "Bitcoin" to a watchlist already holding
"bitcoin" appends it, leaving two identifiers that coincide after
lowercasing. -/
theorem C8_watchlist_counterexample :
    watchlist_add ["bitcoin"] "Bitcoin" = ["bitcoin", "Bitcoin"] ∧
    ciDistinct ["bitcoin"] ∧ ¬ ciDistinct ["bitcoin", "Bitcoin"] := by
  refine ⟨by decide, ?_, ?_⟩
  · unfold ciDistinct
    decide
  · unfold ciDistinct
    decide

/-- C8 (amended): the watchlist is kept an ordered set under exact
string equality: add appends the identifier only if it is absent
(preserving exact-match uniqueness and position order), remove deletes
the first exact occurrence, and bulk-import produces a duplicate-free
list whose elements are exactly the union of the watchlist and the
imported list — in an unspecified order (Python `list(set(...))`). -/
theorem C8_watchlist_amended (wl : List String) (coin : String)
    (imported result : List String) (hnd : wl.Nodup) :
    (watchlist_add wl coin).Nodup ∧
    coin ∈ watchlist_add wl coin ∧
    (coin ∈ wl → watchlist_add wl coin = wl) ∧
    (coin ∉ wl → watchlist_add wl coin = wl ++ [coin]) ∧
    (watchlist_remove wl coin).Nodup ∧
    coin ∉ watchlist_remove wl coin ∧
    (bulkImportResult wl imported result →
      result.Nodup ∧ ∀ x, x ∈ result ↔ (x ∈ wl ∨ x ∈ imported)) := by
  refine ⟨?_, ?_, ?_, ?_, ?_, ?_, fun h => h⟩
  · by_cases h : coin ∈ wl
    · simpa [watchlist_add, h] using hnd
    · have hdisj : wl.Disjoint [coin] := by
        intro a ha hb
        simp only [List.mem_singleton] at hb
        subst hb
        exact h ha
      simp [watchlist_add, h, List.nodup_append, hnd, hdisj]
  · by_cases h : coin ∈ wl
    · simp [watchlist_add, h]
    · simp [watchlist_add, h]
  · intro h
    simp [watchlist_add, h]
  · intro h
    simp [watchlist_add, h]
  · exact List.Nodup.erase coin hnd
  · intro hmem
    unfold watchlist_remove at hmem
    exact ((List.Nodup.mem_erase_iff hnd).mp hmem).1 rfl

/-- C8 (witness): adding "solana" to a duplicate-free watchlist makes it
a member; removing "bitcoin" removes its membership. -/
theorem C8_watchlist_witness :
    "solana" ∈ watchlist_add ["bitcoin", "ethereum"] "solana" ∧
    "bitcoin" ∉ watchlist_remove ["bitcoin", "ethereum"] "bitcoin" :=
  ⟨(C8_watchlist_amended ["bitcoin", "ethereum"] "solana" [] [] (by decide)).2.1,
   (C8_watchlist_amended ["bitcoin", "ethereum"] "bitcoin" [] [] (by decide)).2.2.2.2.2.1⟩

/-- C9: fewer than two rows give momentum score 0; with at least two
rows and a previous volume of exactly 0, the guarded volume term is 0
and the score equals the percent price change times 0.7. -/
theorem C9_momentum_guard (rows : List (ℚ × ℚ)) :
    (rows.length < 2 → calculate_momentum_score rows = FVal.val 0) ∧
    (∀ (c1 v1 c0 : ℚ) (rest : List (ℚ × ℚ)),
      rows.reverse = (c1, v1) :: (c0, 0) :: rest →
      calculate_momentum_score rows
        = FVal.mul (momentum_price_change c1 c0) (FVal.val (7 / 10))) := by
  constructor
  · intro hlen
    have hrl : rows.reverse.length < 2 := by simpa using hlen
    unfold calculate_momentum_score
    rcases hrev : rows.reverse with _ | ⟨⟨c1, v1⟩, _ | ⟨⟨c0, v0⟩, rest⟩⟩
    · rfl
    · rfl
    · rw [hrev] at hrl
      simp only [List.length_cons] at hrl
      omega
  · intro c1 v1 c0 rest hrev
    unfold calculate_momentum_score
    rw [hrev]
    show FVal.add (FVal.mul (momentum_price_change c1 c0) (FVal.val (7 / 10)))
        (FVal.mul (momentum_volume_change v1 0) (FVal.val (3 / 10)))
      = FVal.mul (momentum_price_change c1 c0) (FVal.val (7 / 10))
    rw [show momentum_volume_change v1 0 = FVal.val 0 from by simp [momentum_volume_change]]
    rw [show FVal.mul (FVal.val 0) (FVal.val (3 / 10)) = FVal.val 0 from by
      norm_num [FVal.mul]]
    exact FVal.add_val_zero _

/-- C9 (witness): the empty frame scores 0; two rows with volumes 0 and
closes 1 then 2 score 0.7 times the percent price change (the value
70). -/
theorem C9_momentum_guard_witness :
    calculate_momentum_score ([] : List (ℚ × ℚ)) = FVal.val 0 ∧
    calculate_momentum_score [(1, 0), (2, 0)]
      = FVal.mul (momentum_price_change 2 1) (FVal.val (7 / 10)) :=
  ⟨(C9_momentum_guard []).1 (by norm_num),
   (C9_momentum_guard [(1, 0), (2, 0)]).2 2 0 1 [] rfl⟩

/-- C10: the implied premium is the guarded quotient — None when the
holdings are 0, market cap divided by holdings otherwise — and over the
six hardcoded company rows it evaluates to 8, 8, 7/5, 125/192, 5/2 and
200/61, with no division fault. -/
theorem C10_premium_guard (row : CompanyRow) :
    (row.holdings = 0 → impliedPremium row = none) ∧
    (row.holdings ≠ 0 → impliedPremium row = some (row.market_cap / row.holdings)) ∧
    treasuryPremiums treasuryData
      = [some 8, some 8, some (7 / 5), some (125 / 192), some (5 / 2), some (200 / 61)] := by
  refine ⟨?_, ?_, ?_⟩
  · intro h
    simp [impliedPremium, h]
  · intro h
    simp [impliedPremium, h]
  · norm_num [treasuryPremiums, treasuryData, impliedPremium]

/-- C10 (witness): a zero-holdings row yields None; the first table row
yields 2000/250 = 8. -/
theorem C10_premium_guard_witness :
    impliedPremium { name := "X", symbol := "X", token := "Bitcoin",
                     holdings := 0, market_cap := 100 } = none ∧
    impliedPremium { name := "Bitmine Immersion Technologies", symbol := "BITM",
                     token := "Ethereum", holdings := 250, market_cap := 2000 }
      = some 8 := by
  constructor
  · exact (C10_premium_guard _).1 rfl
  · have h := (C10_premium_guard
      { name := "Bitmine Immersion Technologies", symbol := "BITM",
        token := "Ethereum", holdings := 250, market_cap := 2000 }).2.1 (by norm_num)
    rw [h]
    norm_num
